import Mathlib

/-!
# Verification of the solders keypair and transaction-module bindings

This development shallowly embeds the Ed25519 `Keypair` binding
(`src/keypair.rs`) and the transaction module registration
(`src/transaction.rs`) of the solders crate, and proves the spec's testable
properties against it.

The crate is a thin wrapper over external libraries (solana-sdk /
ed25519-dalek for the key arithmetic, bs58 for text encoding, the Python
runtime for hashing).  Those externals are modelled here concretely:

* the Ed25519 primitives (public-key derivation from a 32-byte seed, and
  deterministic signing) are implemented in full per RFC 8032, exactly the
  algorithm ed25519-dalek implements; the implementation is pinned by the
  known-answer vector asserted in the `sign_message` doc example of
  `src/keypair.rs` (lines 146-152) and reproduces it below;
* SHA-512 is implemented in full (constants derived from the fractional
  parts of the square/cube roots of the first 80 primes, as in the FIPS
  180-4 definition);
* base58 is the standard Bitcoin-alphabet big-number encoding implemented
  by the bs58 crate, pinned by the doc example of `from_base58_string`
  (bytes of 64 zeros encode to the string of 64 ones);
* the solana-sdk keypair layer (`Keypair::from_bytes`, `keypair_from_seed`,
  `to_bytes`, `from_base58_string`, signing) is modelled with the behavior
  the doc examples of `src/keypair.rs` pin at concrete inputs; in
  particular `from_bytes` splits the 64-byte buffer into the stored
  `secret` and `public` halves without re-deriving the public key (the doc
  examples at lines 66-67, 106-107 and 127-130 all construct keypairs whose
  trailing 32 bytes are not the derived public key of the leading 32).

All functions are fuel-based structural recursions so that every theorem
below can be settled by kernel evaluation.
-/

set_option maxRecDepth 1000000

namespace Solders

/-! ## Field and curve arithmetic for edwards25519 (models curve25519-dalek) -/

/-- The prime 2^255 - 19 of the ed25519 base field. -/
def P : Nat := (1 <<< 255) - 19

/-- The prime order 2^252 + 27742317777372353535851937790883648493 of the
ed25519 base-point group. -/
def L : Nat := (1 <<< 252) + 27742317777372353535851937790883648493

/-- Binary modular exponentiation, fuel-based (fuel bounds the bit length of
the exponent). -/
def modpowAux : Nat → Nat → Nat → Nat → Nat
  | 0, _, _, m => 1 % m
  | f+1, b, e, m =>
    if e = 0 then 1 % m
    else
      let r := modpowAux f (b * b % m) (e / 2) m
      if e % 2 = 1 then r * b % m else r

/-- Modular exponentiation `b ^ e mod m` for exponents below 2^300. -/
def modpow (b e m : Nat) : Nat := modpowAux 300 b e m

/-- The twisted-Edwards curve constant d = -121665/121666 mod P. -/
def dTE : Nat := (P - 121665) * modpow 121666 (P - 2) P % P

/-- 2 * d mod P, as used by the extended-coordinates addition formula. -/
def d2TE : Nat := 2 * dTE % P

/-- A square root of -1 mod P, used by point decompression. -/
def sqrtM1 : Nat := modpow 2 ((P - 1) / 4) P

/-- A curve point in extended homogeneous coordinates
(x = X/Z, y = Y/Z, T = XY/Z). -/
structure EPoint where
  x : Nat
  y : Nat
  z : Nat
  t : Nat
deriving DecidableEq, Repr

/-- Complete unified point addition on the twisted Edwards curve
(RFC 8032, section 5.1.4). -/
def ptAdd (p q : EPoint) : EPoint :=
  let a := (p.y + P - p.x) * (q.y + P - q.x) % P
  let b := (p.y + p.x) * (q.y + q.x) % P
  let c := p.t * q.t % P * d2TE % P
  let dd := p.z * q.z % P * 2 % P
  let e := (b + P - a) % P
  let f := (dd + P - c) % P
  let g := (dd + c) % P
  let h := (b + a) % P
  ⟨e * f % P, g * h % P, f * g % P, e * h % P⟩

/-- The neutral element of the curve group. -/
def ptId : EPoint := ⟨0, 1, 1, 0⟩

/-- Strictness helper: forces the four coordinates of a point to numerals
before the continuation consumes the point, keeping kernel reduction of the
scalar-multiplication ladder shallow. -/
def forceE (e : EPoint) (k : EPoint → EPoint) : EPoint :=
  if e.x + e.y + e.z + e.t = 0 then k e else k e

/-- Left-to-right double-and-add ladder; the fuel is the index of the next
scalar bit to consume. -/
def scalarMulAux : Nat → Nat → EPoint → EPoint → EPoint
  | 0, _, _, acc => acc
  | f+1, k, pt, acc =>
    let acc2 := ptAdd acc acc
    forceE (if k.testBit f then ptAdd acc2 pt else acc2) (scalarMulAux f k pt)

/-- Scalar multiplication `k * pt` for scalars below 2^256. -/
def scalarMul (k : Nat) (pt : EPoint) : EPoint := scalarMulAux 256 k pt ptId

/-- The `len` least-significant bytes of `n`, little-endian. -/
def leBytes : Nat → Nat → List Nat
  | 0, _ => []
  | k+1, n => n % 256 :: leBytes k (n / 256)

/-- Big-endian fixed-width byte rendering of `n`. -/
def beBytes (k n : Nat) : List Nat := (leBytes k n).reverse

/-- The number a little-endian byte list denotes. -/
def leVal (l : List Nat) : Nat := l.foldr (fun b acc => b + 256 * acc) 0

/-- Inverse in the base field (Fermat). -/
def fInv (a : Nat) : Nat := modpow a (P - 2) P

/-- Compressed 32-byte encoding of a point: the y coordinate little-endian
with the parity of x in the top bit (RFC 8032, section 5.1.2). -/
def encodePoint (pt : EPoint) : List Nat :=
  let zi := fInv pt.z
  let x := pt.x * zi % P
  let y := pt.y * zi % P
  leBytes 32 (y + ((x % 2) <<< 255))

/-- Recover the x coordinate with sign bit `sgn` from a y coordinate
(RFC 8032, section 5.1.3); used here to derive the base point. -/
def xRecover (y sgn : Nat) : Nat :=
  let u := (y * y + P - 1) % P
  let v := (dTE * y % P * y + 1) % P
  let v2 := v * v % P
  let v7 := v2 * v2 % P * v2 % P * v % P
  let x1 := u * v2 % P * v % P * modpow (u * v7 % P) ((P - 5) / 8) P % P
  let x2 := if v * x1 % P * x1 % P = u then x1 else x1 * sqrtM1 % P
  if x2 % 2 = sgn then x2 else (P - x2) % P

/-- The y coordinate 4/5 mod P of the ed25519 base point. -/
def By5 : Nat := 4 * modpow 5 (P - 2) P % P

/-- The ed25519 base point B = (x, 4/5) with even x. -/
def Bpt : EPoint := ⟨xRecover By5 0, By5, 1, xRecover By5 0 * By5 % P⟩

/-! ## SHA-512 (FIPS 180-4), as used by Ed25519 key expansion and signing -/

/-- Mask selecting the low 64 bits. -/
def m64mask : Nat := (1 <<< 64) - 1

/-- 64-bit right rotation. -/
def rotr (k x : Nat) : Nat := ((x >>> k) ||| (x <<< (64 - k))) &&& m64mask

/-- The Sigma0 word function of SHA-512. -/
def bS0 (x : Nat) : Nat := rotr 28 x ^^^ rotr 34 x ^^^ rotr 39 x

/-- The Sigma1 word function of SHA-512. -/
def bS1 (x : Nat) : Nat := rotr 14 x ^^^ rotr 18 x ^^^ rotr 41 x

/-- The sigma0 message-schedule function of SHA-512. -/
def sS0 (x : Nat) : Nat := rotr 1 x ^^^ rotr 8 x ^^^ (x >>> 7)

/-- The sigma1 message-schedule function of SHA-512. -/
def sS1 (x : Nat) : Nat := rotr 19 x ^^^ rotr 61 x ^^^ (x >>> 6)

/-- The Ch bitwise choice function. -/
def chF (e f g : Nat) : Nat := (e &&& f) ^^^ ((e ^^^ m64mask) &&& g)

/-- The Maj bitwise majority function. -/
def majF (a b c : Nat) : Nat := (a &&& b) ^^^ (a &&& c) ^^^ (b &&& c)

/-- Primality by trial division, used to derive the SHA-512 constants. -/
def isPrimeB (n : Nat) : Bool :=
  decide (2 ≤ n) && ((List.range n).all fun m => decide (m < 2) || decide (n % m ≠ 0))

/-- The first 80 primes. -/
def shaPrimes : List Nat := ((List.range 410).filter isPrimeB).take 80

/-- Bit-by-bit integer cube root (fuel = highest candidate bit). -/
def icbrtAux (n : Nat) : Nat → Nat → Nat
  | 0, r => r
  | f+1, r =>
    let c := r + (1 <<< f)
    icbrtAux n f (if c * c * c ≤ n then c else r)

/-- Integer cube root for arguments below 2^240. -/
def icbrt (n : Nat) : Nat := icbrtAux n 80 0

/-- Bit-by-bit integer square root (fuel = highest candidate bit). -/
def isqrtAux (n : Nat) : Nat → Nat → Nat
  | 0, r => r
  | f+1, r =>
    let c := r + (1 <<< f)
    isqrtAux n f (if c * c ≤ n then c else r)

/-- Integer square root for arguments below 2^160. -/
def isqrtN (n : Nat) : Nat := isqrtAux n 80 0

/-- The 80 SHA-512 round constants: the first 64 bits of the fractional
parts of the cube roots of the first 80 primes.  Stated as numerals so that
kernel evaluation of the hash is cheap; `shaK_derivation` below re-derives
them from the defining formula. -/
def shaK : List Nat :=
  [4794697086780616226, 8158064640168781261, 13096744586834688815, 16840607885511220156,
   4131703408338449720, 6480981068601479193, 10538285296894168987, 12329834152419229976,
   15566598209576043074, 1334009975649890238, 2608012711638119052, 6128411473006802146,
   8268148722764581231, 9286055187155687089, 11230858885718282805, 13951009754708518548,
   16472876342353939154, 17275323862435702243, 1135362057144423861, 2597628984639134821,
   3308224258029322869, 5365058923640841347, 6679025012923562964, 8573033837759648693,
   10970295158949994411, 12119686244451234320, 12683024718118986047, 13788192230050041572,
   14330467153632333762, 15395433587784984357, 489312712824947311, 1452737877330783856,
   2861767655752347644, 3322285676063803686, 5560940570517711597, 5996557281743188959,
   7280758554555802590, 8532644243296465576, 9350256976987008742, 10552545826968843579,
   11727347734174303076, 12113106623233404929, 14000437183269869457, 14369950271660146224,
   15101387698204529176, 15463397548674623760, 17586052441742319658, 1182934255886127544,
   1847814050463011016, 2177327727835720531, 2830643537854262169, 3796741975233480872,
   4115178125766777443, 5681478168544905931, 6601373596472566643, 7507060721942968483,
   8399075790359081724, 8693463985226723168, 9568029438360202098, 10144078919501101548,
   10430055236837252648, 11840083180663258601, 13761210420658862357, 14299343276471374635,
   14566680578165727644, 15097957966210449927, 16922976911328602910, 17689382322260857208,
   500013540394364858, 748580250866718886, 1242879168328830382, 1977374033974150939,
   2944078676154940804, 3659926193048069267, 4368137639120453308, 4836135668995329356,
   5532061633213252278, 6448918945643986474, 6902733635092675308, 7801388544844847127]

/-- The 8 SHA-512 initial hash words: the first 64 bits of the fractional
parts of the square roots of the first 8 primes. -/
def shaH0 : List Nat :=
  [7640891576956012808, 13503953896175478587, 4354685564936845355, 11912009170470909681,
   5840696475078001361, 11170449401992604703, 2270897969802886507, 6620516959819538809]

/-- Merkle-Damgard padding: append 0x80, zeros, then the 16-byte big-endian
bit length, reaching a multiple of 128 bytes. -/
def sha512Pad (msg : List Nat) : List Nat :=
  msg ++ 128 :: (List.replicate ((239 - msg.length % 128) % 128) 0 ++ beBytes 16 (8 * msg.length))

/-- Split a padded message into 128-byte blocks (fuel-based). -/
def chunksAux : Nat → List Nat → List (List Nat)
  | 0, _ => []
  | _, [] => []
  | f+1, l => l.take 128 :: chunksAux f (l.drop 128)

/-- Parse a 128-byte block into 16 big-endian 64-bit words (fuel-based). -/
def toWordsAux : Nat → List Nat → List Nat
  | 0, _ => []
  | f+1, l => (l.take 8).foldl (fun a b => a * 256 + b) 0 :: toWordsAux f (l.drop 8)

/-- Extend the 16 message words to the 80-entry message schedule. -/
def extendW : Nat → List Nat → List Nat
  | 0, w => w
  | f+1, w =>
    let nw := (sS1 (w.getD (w.length - 2) 0) + w.getD (w.length - 7) 0 +
               sS0 (w.getD (w.length - 15) 0) + w.getD (w.length - 16) 0) &&& m64mask
    extendW f (w ++ [nw])

/-- One SHA-512 round on the eight-word working state. -/
def roundFn (st : List Nat) (kw : Nat × Nat) : List Nat :=
  match st with
  | [a, b, c, d0, e, f, g, h] =>
    let t1 := (h + bS1 e + chF e f g + kw.1 + kw.2) &&& m64mask
    let t2 := (bS0 a + majF a b c) &&& m64mask
    [(t1 + t2) &&& m64mask, a, b, c, (d0 + t1) &&& m64mask, e, f, g]
  | _ => st

/-- The SHA-512 compression function over one 128-byte block. -/
def compress512 (H : List Nat) (block : List Nat) : List Nat :=
  let w := extendW 64 (toWordsAux 16 block)
  let st := (shaK.zip w).foldl roundFn H
  List.zipWith (fun x y => (x + y) &&& m64mask) H st

/-- SHA-512 of a byte string, as 64 bytes. -/
def sha512 (msg : List Nat) : List Nat :=
  let padded := sha512Pad msg
  List.flatten (((chunksAux (padded.length + 1) padded).foldl compress512 shaH0).map (beBytes 8))

/-! ## Ed25519 (RFC 8032), the primitives ed25519-dalek supplies -/

/-- Clamp the low 32 hash bytes into an Ed25519 secret scalar: clear the low
three bits and bit 255, set bit 254. -/
def clampScalar (h32 : List Nat) : Nat :=
  (leVal h32 &&& ((1 <<< 254) - 8)) ||| (1 <<< 254)

/-- The Ed25519 public key deterministically derived from a 32-byte seed:
the encoding of clamp(SHA-512(seed)[0..32]) * B.  This is the
`ed25519_dalek::PublicKey::from(&secret)` derivation that `keypair_from_seed`
uses. -/
def ed25519Pubkey (seed : List Nat) : List Nat :=
  encodePoint (scalarMul (clampScalar ((sha512 seed).take 32)) Bpt)

/-- Deterministic Ed25519 signature of `msg` under the 32-byte `secret`,
with `pubBytes` the public-key bytes the signer stores (dalek hashes the
stored public key, not a re-derived one).  No randomness enters: the nonce
is SHA-512(prefix, msg) reduced mod L. -/
def ed25519Sign (secret pubBytes msg : List Nat) : List Nat :=
  let h := sha512 secret
  let a := clampScalar (h.take 32)
  let pfx := h.drop 32
  let r := leVal (sha512 (pfx ++ msg)) % L
  let rb := encodePoint (scalarMul r Bpt)
  let k := leVal (sha512 (rb ++ pubBytes ++ msg)) % L
  rb ++ leBytes 32 ((r + k * a) % L)

/-! ## Base58 (the bs58 crate's Bitcoin-alphabet encoding) -/

/-- Little-endian digits of `n` in base `base`; the fuel (first `Nat`
argument) only needs to be at least `n` for the result to be the canonical
digit string. -/
def leDigits (base : Nat) : Nat → Nat → List Nat
  | 0, _ => []
  | f+1, n => if n = 0 then [] else n % base :: leDigits base f (n / base)

/-- Big-endian canonical digits of `n` in base `base` (empty for 0). -/
def beDigits (base n : Nat) : List Nat := (leDigits base n n).reverse

/-- The value of a big-endian digit string in base `base`, accumulated left
to right exactly as the bs58 crate does. -/
def beNum (base : Nat) (l : List Nat) : Nat := l.foldl (fun a d => a * base + d) 0

/-- The Bitcoin base58 alphabet. -/
def b58Chars : List Char :=
  "123456789ABCDEFGHJKLMNPQRSTUVWXYZabcdefghijkmnopqrstuvwxyz".toList

/-- Index of a character in the alphabet, if present. -/
def b58IndexAux : List Char → Char → Nat → Option Nat
  | [], _, _ => none
  | a :: t, c, i => if a = c then some i else b58IndexAux t c (i + 1)

/-- The digit value of a base58 character. -/
def b58Index (c : Char) : Option Nat := b58IndexAux b58Chars c 0

/-- Base58 encoding: one leading alphabet-zero character per leading zero
byte, followed by the big-endian base-58 digits of the value of the whole
byte string. -/
def b58Encode (bytes : List Nat) : List Char :=
  List.replicate (bytes.takeWhile (fun x => x == 0)).length '1' ++
    (beDigits 58 (beNum 256 bytes)).map (fun d => b58Chars.getD d ' ')

/-- Digit values of a base58 string, failing on the first invalid
character. -/
def b58DigitsOf : List Char → Option (List Nat)
  | [] => some []
  | c :: t =>
    match b58Index c, b58DigitsOf t with
    | some d, some ds => some (d :: ds)
    | _, _ => none

/-- Base58 decoding: one zero byte per leading alphabet-zero character,
followed by the big-endian bytes of the value of the whole digit string. -/
def b58Decode (s : List Char) : Option (List Nat) :=
  match b58DigitsOf s with
  | none => none
  | some ds =>
    some (List.replicate (s.takeWhile (fun c => c == '1')).length 0 ++
          beDigits 256 (beNum 58 ds))

/-! ## The Keypair data model (src/keypair.rs over solana-sdk) -/

/-- A keypair as the underlying ed25519-dalek `Keypair` stores it: the
32 secret-seed bytes and the 32 public-key bytes.  `src/keypair.rs` wraps
this (`pub struct Keypair(pub KeypairOriginal)`) without adding state. -/
structure Keypair where
  secret : List Nat
  public : List Nat
deriving DecidableEq, Repr

/-- Well-formedness of the stored byte material: two 32-byte halves. -/
def Keypair.WF (k : Keypair) : Prop :=
  k.secret.length = 32 ∧ k.public.length = 32 ∧
    (∀ x ∈ k.secret, x < 256) ∧ (∀ x ∈ k.public, x < 256)

instance (k : Keypair) : Decidable k.WF := by
  unfold Keypair.WF; infer_instance

/-- Result of a fallible Rust constructor. -/
inductive RustResult (α : Type) where
  | ok (v : α)
  | err (e : String)
deriving DecidableEq, Repr

/-- The 64-byte representation `secret || public` returned by
`Keypair::to_bytes` (exposed by `to_bytes_array` and `__bytes__` in
`src/keypair.rs`, lines 69-75). -/
def Keypair.to_bytes (k : Keypair) : List Nat := k.secret ++ k.public

/-- The stored public key, as returned by `pubkey()`
(`src/keypair.rs` lines 117-134: the doc example there loads
`seed_bytes + pubkey_bytes` with `from_bytes` and gets `pubkey_bytes` back,
so `pubkey()` reads the stored trailing half). -/
def Keypair.pubkey (k : Keypair) : List Nat := k.public

/-- Signing with the stored secret and stored public bytes, as
`sign_message` does (`src/keypair.rs` lines 136-156). -/
def Keypair.sign_message (k : Keypair) (msg : List Nat) : List Nat :=
  ed25519Sign k.secret k.public msg

namespace KeypairOriginal

/-- The `solana_sdk::signer::keypair::Keypair::from_bytes` this crate calls
(`src/keypair.rs` lines 54-57): parse the leading 32 bytes as the secret and
the trailing 32 bytes as the public key, storing both verbatim; fail on a
buffer that is not 64 bytes.  No consistency check between the halves is
performed — the crate's own doc examples (lines 66-67, 106-107, 127-130)
construct keypairs from buffers whose trailing half is not the derived
public key of the leading half and assert success. -/
def from_bytes (b : List Nat) : RustResult Keypair :=
  if b.length = 64 then .ok ⟨b.take 32, b.drop 32⟩
  else .err "signature error: Cannot decompress Edwards point"

/-- The `solana_sdk` `keypair_from_seed` (`src/keypair.rs` lines 176-178):
deterministically derive the public key from the first 32 seed bytes; fail
only on a seed shorter than 32 bytes. -/
def keypair_from_seed (seed : List Nat) : RustResult Keypair :=
  if seed.length < 32 then .err "Seed is too short"
  else .ok ⟨seed.take 32, ed25519Pubkey (seed.take 32)⟩

/-- The `solana_sdk` `Keypair::to_base58_string`, called by `__str__`
(`src/keypair.rs` lines 113-115). -/
def to_base58_string (k : Keypair) : List Char := b58Encode k.to_bytes

/-- The `solana_sdk` `Keypair::from_base58_string`
(`src/keypair.rs` lines 95-97): base58-decode, then `from_bytes`, unwrapping
both — a decode or parse failure aborts the call (a Rust panic), it is never
returned as a value; `none` models that abort. -/
def from_base58_string (s : List Char) : Option Keypair :=
  match b58Decode s with
  | none => none
  | some bytes =>
    match from_bytes bytes with
    | .ok k => some k
    | .err _ => none

end KeypairOriginal

/-- Modelled from the spec: the `PartialEq` of the underlying solana-sdk
`Keypair`, which `#[derive(PartialEq)]` on the wrapper delegates to
(`src/keypair.rs` lines 17-18 and 215-221) and which is not part of this
crate's sources.  Spec section 4.1: "two Keypair values are equal iff their
64-byte representations are byte-identical". -/
def keypairEqOriginal (k1 k2 : Keypair) : Bool :=
  k1.to_bytes == k2.to_bytes

/-- The `Clone` impl of the wrapper (`src/keypair.rs` lines 264-268):
round-trip through the 64-byte form and unwrap; `none` models the abort on
a failed re-validation. -/
def Keypair.clone (k : Keypair) : Option Keypair :=
  match KeypairOriginal.from_bytes k.to_bytes with
  | .ok k2 => some k2
  | .err _ => none

/-- A presigner: a pre-computed signature bound to a public key
(the `PresignerWrapper` payload of the `Signer` union). -/
structure Presigner where
  pubkey : List Nat
  signature : List Nat
deriving DecidableEq, Repr

/-- The `Signer` union this crate dispatches comparisons over
(`src/keypair.rs` lines 215-221). -/
inductive Signer where
  | KeypairWrapper (kp : Keypair)
  | PresignerWrapper (ps : Presigner)
deriving DecidableEq, Repr

/-- The pyclass comparison operators. -/
inductive CompareOp where
  | lt
  | le
  | eq
  | ne
  | gt
  | ge
deriving DecidableEq, Repr

/-- Outcome of a Python-visible call: a value, a raised Python error value,
or a Rust panic aborting the call (pyo3's PanicException). -/
inductive PyOutcome (α : Type) where
  | ok (v : α)
  | pyErr (msg : String)
  | panicked
deriving DecidableEq, Repr

/-- Whether an outcome is a raised Python error value. -/
def PyOutcome.isPyErr {α : Type} : PyOutcome α → Bool
  | .pyErr _ => true
  | _ => false

/-- The `__richcmp__` of the wrapper (`src/keypair.rs` lines 215-221):
compute equality of the wrapped value against the other signer's wrapped
value, then answer `==`/`!=` and raise on ordering operators (the
`RichcmpEqOnlyPrecalculated` helper).  The comparison against a wrapped
presigner (`ps.0 == self.0`) lives in the external solana-sdk crate and is
passed in as `psEq`. -/
def Keypair.richcmp (psEq : Presigner → Keypair → Bool) (self : Keypair)
    (other : Signer) (op : CompareOp) : PyOutcome Bool :=
  let otherEq :=
    match other with
    | .KeypairWrapper kp => keypairEqOriginal kp self
    | .PresignerWrapper ps => psEq ps self
  match op with
  | .eq => .ok otherEq
  | .ne => .ok (!otherEq)
  | _ => .pyErr "TypeError"

/-- The `__hash__` of the wrapper (`src/keypair.rs` lines 205-213): the host
hash of the tuple of the fixed type discriminant "Keypair" and the 64-byte
representation.  The host hash function itself is external state-free
Python, so it is a parameter. -/
def Keypair.pyHash (hostHash : String × List Nat → Int) (k : Keypair) : Int :=
  hostHash ("Keypair", k.to_bytes)

/-! ## The Python-visible constructors (pyo3 signatures of src/keypair.rs) -/

/-- `Keypair.from_bytes` as Python sees it (`src/keypair.rs` lines 54-57):
pyo3 converts the argument to `[u8; 64]`, raising on any other length, and
`handle_py_value_err` turns an inner `Err` into a raised `ValueError`
(the spec's `KeyConstructionError`). -/
def Keypair.py_from_bytes (b : List Nat) : PyOutcome Keypair :=
  if b.length = 64 then
    match KeypairOriginal.from_bytes b with
    | .ok k => .ok k
    | .err e => .pyErr e
  else .pyErr "TypeError: expected 64 bytes"

/-- `Keypair.from_seed` as Python sees it (`src/keypair.rs` lines 176-178):
pyo3 converts the argument to `[u8; 32]`, raising on any other length, then
`handle_py_value_err (keypair_from_seed seed)`. -/
def Keypair.py_from_seed (s : List Nat) : PyOutcome Keypair :=
  if s.length = 32 then
    match KeypairOriginal.keypair_from_seed s with
    | .ok k => .ok k
    | .err e => .pyErr e
  else .pyErr "TypeError: expected 32 bytes"

/-- `Keypair.from_base58_string` as Python sees it (`src/keypair.rs` lines
95-97): the Rust signature returns `Self`, not `PyResult<Self>`, so no error
value can be returned — an invalid string aborts with a panic instead. -/
def Keypair.py_from_base58_string (s : List Char) : PyOutcome Keypair :=
  match KeypairOriginal.from_base58_string s with
  | some k => .ok k
  | none => .panicked

/-- `Keypair.sign_message` as Python sees it (`src/keypair.rs` lines
136-156): infallible, returns the Ed25519 signature bytes. -/
def Keypair.py_sign_message (k : Keypair) (msg : List Nat) : List Nat :=
  k.sign_message msg

/-! ## The transaction module registration (src/transaction.rs) -/

/-- The Python type objects `create_transaction_mod` mentions. -/
inductive PyTypeRef where
  | transactionType
  | versionedTransactionType
  | legacyType
  | intType
  | noneType
  | sanitizeErrorType
  | transactionErrorType
deriving DecidableEq, Repr

/-- An attribute registered on the module: a class, an exception type, or a
`typing.Union` of type objects. -/
inductive PyModItem where
  | classItem (t : PyTypeRef)
  | excItem (t : PyTypeRef)
  | unionItem (ts : List PyTypeRef)
deriving DecidableEq, Repr

/-- The attributes `create_transaction_mod` registers, in order
(`src/transaction.rs` lines 11-27).  `TransactionVersion` is bound to
`typing.Union[Legacy, int]` — a two-member union, not `Optional[int]`. -/
def create_transaction_mod : List (String × PyModItem) :=
  [("Transaction", .classItem .transactionType),
   ("VersionedTransaction", .classItem .versionedTransactionType),
   ("Legacy", .classItem .legacyType),
   ("SanitizeError", .excItem .sanitizeErrorType),
   ("TransactionError", .excItem .transactionErrorType),
   ("TransactionVersion", .unionItem [.legacyType, .intType])]

/-- A value of the registered `TransactionVersion` union: an instance of the
`Legacy` marker class, or a Python `int`. -/
inductive TransactionVersion where
  | legacy
  | intVersion (n : Int)
deriving DecidableEq, Repr

/-! ## Helper lemmas: positional digit strings -/

/-- The value of a little-endian digit string, recursively (proof-side
companion of `beNum`). -/
def leNum (base : Nat) : List Nat → Nat
  | [] => 0
  | d :: l => d + base * leNum base l

theorem leNum_eq_foldr (base : Nat) (l : List Nat) :
    leNum base l = l.foldr (fun d acc => d + base * acc) 0 := by
  induction l with
  | nil => rfl
  | cons d t ih => simp [leNum, ih]

theorem beNum_eq_leNum_reverse (base : Nat) (l : List Nat) :
    beNum base l = leNum base l.reverse := by
  rw [leNum_eq_foldr]
  have h : (fun (x y : Nat) => x * base + y) =
      (fun x y => (fun (d acc : Nat) => d + base * acc) y x) := by
    funext x y
    ring
  unfold beNum
  rw [h, ← List.foldr_reverse]

theorem leDigits_zero (base f : Nat) : leDigits base f 0 = [] := by
  cases f <;> simp [leDigits]

theorem leDigits_lt (base : Nat) (hb : 0 < base) :
    ∀ f n d, d ∈ leDigits base f n → d < base := by
  intro f
  induction f with
  | zero =>
    intro n d hd
    simp [leDigits] at hd
  | succ f ih =>
    intro n d hd
    by_cases hn : n = 0
    · simp [leDigits, hn] at hd
    · simp only [leDigits, hn, if_false, List.mem_cons] at hd
      rcases hd with h | h
      · exact h ▸ Nat.mod_lt _ hb
      · exact ih _ _ h

theorem leNum_leDigits (base : Nat) (hb : 2 ≤ base) :
    ∀ f n, n ≤ f → leNum base (leDigits base f n) = n := by
  intro f
  induction f with
  | zero =>
    intro n hn
    have h0 : n = 0 := Nat.le_zero.mp hn
    subst h0
    simp [leDigits, leNum]
  | succ f ih =>
    intro n hn
    by_cases h0 : n = 0
    · subst h0
      simp [leDigits, leNum]
    · have h1 : n / base < n := Nat.div_lt_self (Nat.pos_of_ne_zero h0) (by omega)
      have hdiv : n / base ≤ f := by omega
      simp only [leDigits, h0, if_false, leNum]
      rw [ih _ hdiv, Nat.mod_add_div]

theorem leNum_zero_all (base : Nat) (hb : 0 < base) :
    ∀ l : List Nat, leNum base l = 0 → ∀ x ∈ l, x = 0 := by
  intro l
  induction l with
  | nil => intro _ x hx; simp at hx
  | cons d t ih =>
    intro h x hx
    simp only [leNum] at h
    obtain ⟨hd, ht⟩ := Nat.add_eq_zero_iff.mp h
    have ht2 : leNum base t = 0 := by
      rcases Nat.mul_eq_zero.mp ht with h1 | h1
      · omega
      · exact h1
    rcases List.mem_cons.mp hx with h2 | h2
    · exact h2.trans hd
    · exact ih ht2 x h2

theorem leDigits_leNum (base : Nat) (hb : 2 ≤ base) :
    ∀ l : List Nat, ∀ f, (∀ x ∈ l, x < base) → (∀ l0 d, l = l0 ++ [d] → d ≠ 0) →
      leNum base l ≤ f → leDigits base f (leNum base l) = l := by
  intro l
  induction l with
  | nil =>
    intro f _ _ _
    simp [leNum, leDigits_zero]
  | cons x t ih =>
    intro f hlt hsnoc hle
    have hx : x < base := hlt x (List.mem_cons_self x t)
    have hv : leNum base (x :: t) = x + base * leNum base t := rfl
    have hvne : leNum base (x :: t) ≠ 0 := by
      intro h0
      rcases List.eq_nil_or_concat (x :: t) with hnil | ⟨l0, d, hcat⟩
      · simp at hnil
      · have hd0 : d ≠ 0 := hsnoc l0 d (by simpa [List.concat_eq_append] using hcat)
        have hdmem : d ∈ x :: t := by
          rw [hcat]
          simp [List.concat_eq_append]
        exact hd0 (leNum_zero_all base (by omega) _ h0 d hdmem)
    cases f with
    | zero => omega
    | succ f =>
      simp only [leDigits, hvne, if_false]
      have hmod : leNum base (x :: t) % base = x := by
        rw [hv, Nat.add_mul_mod_self_left, Nat.mod_eq_of_lt hx]
      have hdivt : leNum base (x :: t) / base = leNum base t := by
        rw [hv, Nat.add_mul_div_left _ _ (by omega : 0 < base), Nat.div_eq_of_lt hx]
        omega
      rw [hmod, hdivt]
      congr 1
      apply ih f (fun y hy => hlt y (List.mem_cons_of_mem x hy))
      · intro l0 d hd
        exact hsnoc (x :: l0) d (by rw [hd, List.cons_append])
      · have : leNum base t < leNum base (x :: t) := by
          have hdl : leNum base (x :: t) / base < leNum base (x :: t) :=
            Nat.div_lt_self (Nat.pos_of_ne_zero hvne) (by omega)
          omega
        omega

theorem beDigits_zero (base : Nat) : beDigits base 0 = [] := by
  simp [beDigits, leDigits_zero]

theorem beDigits_lt (base : Nat) (hb : 0 < base) (n d : Nat)
    (hd : d ∈ beDigits base n) : d < base := by
  rw [beDigits, List.mem_reverse] at hd
  exact leDigits_lt base hb n n d hd

theorem beNum_beDigits (base : Nat) (hb : 2 ≤ base) (n : Nat) :
    beNum base (beDigits base n) = n := by
  rw [beNum_eq_leNum_reverse, beDigits, List.reverse_reverse]
  exact leNum_leDigits base hb n n (Nat.le_refl n)

theorem beDigits_beNum (base : Nat) (hb : 2 ≤ base) (l : List Nat)
    (hl : ∀ x ∈ l, x < base) (hh : l.head? ≠ some 0) :
    beDigits base (beNum base l) = l := by
  rw [beNum_eq_leNum_reverse, beDigits]
  have h := leDigits_leNum base hb l.reverse (leNum base l.reverse)
    (fun x hx => hl x (List.mem_reverse.mp hx))
    (by
      intro l0 d hd
      intro hd0
      subst hd0
      have : l = 0 :: l0.reverse := by
        have := congrArg List.reverse hd
        simpa using this
      rw [this] at hh
      simp at hh)
    (Nat.le_refl _)
  rw [h, List.reverse_reverse]

theorem leDigits_last_ne_zero (base : Nat) (hb : 2 ≤ base) :
    ∀ f n, n ≠ 0 → n ≤ f → ∃ l d, leDigits base f n = l ++ [d] ∧ d ≠ 0 := by
  intro f
  induction f with
  | zero => intro n h1 h2; omega
  | succ f ih =>
    intro n h1 h2
    simp only [leDigits, h1, if_false]
    by_cases hq : n / base = 0
    · have hlt : n < base := (Nat.div_eq_zero_iff (by omega)).mp hq
      refine ⟨[], n % base, ?_, ?_⟩
      · rw [hq, leDigits_zero]
        rfl
      · rw [Nat.mod_eq_of_lt hlt]
        exact h1
    · have hdl : n / base < n := Nat.div_lt_self (Nat.pos_of_ne_zero h1) (by omega)
      obtain ⟨l, d, hld, hd⟩ := ih (n / base) hq (by omega)
      exact ⟨n % base :: l, d, by rw [hld, List.cons_append], hd⟩

theorem beDigits_cons (base : Nat) (hb : 2 ≤ base) (n : Nat) (hn : n ≠ 0) :
    ∃ d t, beDigits base n = d :: t ∧ d ≠ 0 ∧ d < base := by
  obtain ⟨l, d, hld, hd⟩ := leDigits_last_ne_zero base hb n n hn (Nat.le_refl n)
  refine ⟨d, l.reverse, ?_, hd, ?_⟩
  · rw [beDigits, hld]
    simp
  · exact leDigits_lt base (by omega) n n d (by rw [hld]; simp)

theorem beNum_replicate_zero (base : Nat) :
    ∀ z, List.foldl (fun a d => a * base + d) 0 (List.replicate z 0) = 0 := by
  intro z
  induction z with
  | zero => rfl
  | succ z ih => simpa [List.replicate_succ] using ih

theorem beNum_replicate_zero_append (base : Nat) (z : Nat) (l : List Nat) :
    beNum base (List.replicate z 0 ++ l) = beNum base l := by
  unfold beNum
  rw [List.foldl_append, beNum_replicate_zero]

/-! ## Helper lemmas: base58 -/

theorem b58Index_one : b58Index '1' = some 0 := by decide

theorem b58Index_alpha : ∀ d, d < 58 → b58Index (b58Chars.getD d ' ') = some d := by decide

theorem b58_alpha_ne_one : ∀ d, d < 58 → d ≠ 0 → ((b58Chars.getD d ' ') == '1') = false := by
  decide

theorem b58DigitsOf_map (ds : List Nat) (h : ∀ d ∈ ds, d < 58) :
    b58DigitsOf (ds.map (fun d => b58Chars.getD d ' ')) = some ds := by
  induction ds with
  | nil => rfl
  | cons d t ih =>
    have hd : d < 58 := h d (List.mem_cons_self d t)
    simp only [List.map_cons, b58DigitsOf,
      b58Index_alpha d hd, ih (fun y hy => h y (List.mem_cons_of_mem d hy))]

theorem b58DigitsOf_ones_append (z : Nat) (l : List Char) (ds : List Nat)
    (h : b58DigitsOf l = some ds) :
    b58DigitsOf (List.replicate z '1' ++ l) = some (List.replicate z 0 ++ ds) := by
  induction z with
  | zero => simpa using h
  | succ z ih =>
    rw [List.replicate_succ, List.cons_append]
    show (match b58Index '1', b58DigitsOf (List.replicate z '1' ++ l) with
      | some d, some ds => some (d :: ds)
      | _, _ => none) = some (List.replicate (z + 1) 0 ++ ds)
    rw [b58Index_one, ih]
    rfl

theorem length_takeWhile_one (z : Nat) (l : List Char)
    (hl : ∀ c t, l = c :: t → (c == '1') = false) :
    ((List.replicate z '1' ++ l).takeWhile (fun c => c == '1')).length = z := by
  induction z with
  | zero =>
    simp only [List.replicate_zero, List.nil_append]
    cases l with
    | nil => rfl
    | cons c t =>
      rw [List.takeWhile_cons_of_neg]
      · rfl
      · simp [hl c t rfl]
  | succ z ih =>
    rw [List.replicate_succ, List.cons_append,
      List.takeWhile_cons_of_pos (by decide), List.length_cons, ih]

theorem dropWhile_head?_false {α : Type} (p : α → Bool) (l : List α) :
    ∀ a, (l.dropWhile p).head? = some a → p a = false := by
  induction l with
  | nil => intro a h; simp [List.dropWhile] at h
  | cons x t ih =>
    intro a h
    by_cases hx : p x
    · rw [List.dropWhile_cons_of_pos hx] at h
      exact ih a h
    · rw [List.dropWhile_cons_of_neg hx] at h
      simp only [List.head?_cons, Option.some.injEq] at h
      subst h
      exact Bool.eq_false_iff.mpr hx

/-- Round-trip of the base58 codec on byte strings: decoding the encoding of
any byte string recovers it exactly. -/
theorem b58Decode_b58Encode (b : List Nat) (hb : ∀ x ∈ b, x < 256) :
    b58Decode (b58Encode b) = some b := by
  have htake : b.takeWhile (fun x => x == 0) =
      List.replicate (b.takeWhile (fun x => x == 0)).length 0 := by
    apply List.eq_replicate_of_mem
    intro y hy
    have := List.mem_takeWhile_imp hy
    simpa using this
  have hsplit : b.takeWhile (fun x => x == 0) ++ b.dropWhile (fun x => x == 0) = b :=
    List.takeWhile_append_dropWhile _ _
  have hn : beNum 256 b = beNum 256 (b.dropWhile (fun x => x == 0)) := by
    conv_lhs => rw [← hsplit, htake]
    rw [beNum_replicate_zero_append]
  have henc : b58Encode b =
      List.replicate (b.takeWhile (fun x => x == 0)).length '1' ++
        (beDigits 58 (beNum 256 (b.dropWhile (fun x => x == 0)))).map
          (fun d => b58Chars.getD d ' ') := by
    unfold b58Encode
    rw [hn]
  have hdigits : b58DigitsOf (b58Encode b) =
      some (List.replicate (b.takeWhile (fun x => x == 0)).length 0 ++
        beDigits 58 (beNum 256 (b.dropWhile (fun x => x == 0)))) := by
    rw [henc]
    exact b58DigitsOf_ones_append _ _ _
      (b58DigitsOf_map _ (fun d hd => beDigits_lt 58 (by omega) _ d hd))
  have hz : ((b58Encode b).takeWhile (fun c => c == '1')).length =
      (b.takeWhile (fun x => x == 0)).length := by
    rw [henc]
    apply length_takeWhile_one
    intro c t hct
    by_cases hn0 : beNum 256 (b.dropWhile (fun x => x == 0)) = 0
    · rw [hn0, beDigits_zero] at hct
      simp at hct
    · obtain ⟨d, t', hdt, hd0, hdlt⟩ := beDigits_cons 58 (by omega) _ hn0
      rw [hdt, List.map_cons] at hct
      have hcd : c = b58Chars.getD d ' ' := by
        injection hct with h1 _
        exact h1.symm
      rw [hcd]
      exact b58_alpha_ne_one d hdlt hd0
  have hrest : beDigits 256 (beNum 256 (b.dropWhile (fun x => x == 0))) =
      b.dropWhile (fun x => x == 0) := by
    apply beDigits_beNum 256 (by omega)
    · intro x hx
      exact hb x (List.Sublist.mem hx (List.dropWhile_sublist _))
    · intro hh
      have := dropWhile_head?_false (fun x => x == 0) b 0 hh
      simp at this
  have hval : beNum 58 (List.replicate (b.takeWhile (fun x => x == 0)).length 0 ++
      beDigits 58 (beNum 256 (b.dropWhile (fun x => x == 0)))) =
      beNum 256 (b.dropWhile (fun x => x == 0)) := by
    rw [beNum_replicate_zero_append, beNum_beDigits 58 (by omega)]
  unfold b58Decode
  rw [hdigits]
  simp only [hz, hval, hrest]
  rw [← htake, hsplit]

/-! ## Helper lemmas: keypair byte layout -/

theorem Keypair.to_bytes_length (k : Keypair) (h1 : k.secret.length = 32)
    (h2 : k.public.length = 32) : k.to_bytes.length = 64 := by
  simp [Keypair.to_bytes, h1, h2]

theorem from_bytes_to_bytes (k : Keypair) (h1 : k.secret.length = 32)
    (h2 : k.public.length = 32) :
    KeypairOriginal.from_bytes k.to_bytes = .ok k := by
  unfold KeypairOriginal.from_bytes
  rw [if_pos (Keypair.to_bytes_length k h1 h2)]
  unfold Keypair.to_bytes
  rw [List.take_left' h1, List.drop_left' h1]

theorem to_bytes_injective (k1 k2 : Keypair) (h1 : k1.secret.length = 32)
    (h2 : k2.secret.length = 32) (h : k1.to_bytes = k2.to_bytes) : k1 = k2 := by
  unfold Keypair.to_bytes at h
  have hs : k1.secret = k2.secret := by
    have := congrArg (List.take 32) h
    rwa [List.take_left' h1, List.take_left' h2] at this
  have hp : k1.public = k2.public := by
    have := congrArg (List.drop 32) h
    rwa [List.drop_left' h1, List.drop_left' h2] at this
  cases k1
  cases k2
  simp_all

/-! ## Claim theorems -/

/-- The known-answer Ed25519 signature from the `sign_message` doc example of
`src/keypair.rs` (lines 146-152): hex
e1430c6ebd0d53573b5c803452174f8991ef5955e0906a09e8fdc7310459e9c8
2a402526748c3431fe7f0e5faafbf7e703234789734063ee42be17af16438d08. -/
def knownSignatureHello : List Nat :=
  [0xe1, 0x43, 0x0c, 0x6e, 0xbd, 0x0d, 0x53, 0x57, 0x3b, 0x5c, 0x80, 0x34, 0x52, 0x17, 0x4f, 0x89,
   0x91, 0xef, 0x59, 0x55, 0xe0, 0x90, 0x6a, 0x09, 0xe8, 0xfd, 0xc7, 0x31, 0x04, 0x59, 0xe9, 0xc8,
   0x2a, 0x40, 0x25, 0x26, 0x74, 0x8c, 0x34, 0x31, 0xfe, 0x7f, 0x0e, 0x5f, 0xaa, 0xfb, 0xf7, 0xe7,
   0x03, 0x23, 0x47, 0x89, 0x73, 0x40, 0x63, 0xee, 0x42, 0xbe, 0x17, 0xaf, 0x16, 0x43, 0x8d, 0x08]

/-- C1 (counterexample): the 64-byte buffer 32 zero bytes followed by 32 one
bytes has a trailing half that is NOT the Ed25519 public key derived from
its leading half, yet `Keypair::from_bytes` succeeds on it and returns a
Keypair — exactly what the crate's own doc example at
`src/keypair.rs` lines 127-130 asserts.  This refutes the claim that every
such buffer is rejected with a `KeyConstructionError`. -/
theorem from_bytes_accepts_inconsistent_pair :
    KeypairOriginal.from_bytes (List.replicate 32 0 ++ List.replicate 32 1) =
      .ok ⟨List.replicate 32 0, List.replicate 32 1⟩ ∧
    ed25519Pubkey (List.replicate 32 0) ≠ List.replicate 32 1 := by
  constructor
  · decide
  · decide

/-- C1 (amended): `Keypair.from_bytes` performs no derivation-consistency
validation: the buffer 0x00^32 followed by 0x01^32, whose trailing 32 bytes
are not the public key derived from its leading 32 bytes, is accepted, the
two halves are stored verbatim, `pubkey()` returns the stored trailing
half, and the 64-byte representation round-trips. -/
theorem from_bytes_stores_halves_verbatim :
    ∃ k : Keypair,
      KeypairOriginal.from_bytes (List.replicate 32 0 ++ List.replicate 32 1) = .ok k ∧
      k.secret = List.replicate 32 0 ∧
      k.pubkey = List.replicate 32 1 ∧
      k.to_bytes = List.replicate 32 0 ++ List.replicate 32 1 ∧
      ed25519Pubkey (List.replicate 32 0) ≠ List.replicate 32 1 :=
  ⟨⟨List.replicate 32 0, List.replicate 32 1⟩, by decide, by decide, by decide, by decide,
    by decide⟩

/-- C2: `Keypair.from_seed` is deterministic — on every 32-byte seed it
succeeds, and any two keypairs it returns for the same seed have equal
`pubkey()` and produce byte-identical signatures on every message.  In this
embedding the constructors and `sign_message` are pure functions of their
arguments (no ambient randomness enters `keypair_from_seed` or the RFC 8032
signing algorithm), so two runs coincide. -/
theorem from_seed_deterministic (s : List Nat) (h : s.length = 32) :
    (∃ k, Keypair.py_from_seed s = .ok k) ∧
    (∀ k1 k2, Keypair.py_from_seed s = .ok k1 → Keypair.py_from_seed s = .ok k2 →
      k1.pubkey = k2.pubkey ∧ ∀ m, k1.sign_message m = k2.sign_message m) := by
  have hs : Keypair.py_from_seed s = .ok ⟨s.take 32, ed25519Pubkey (s.take 32)⟩ := by
    unfold Keypair.py_from_seed KeypairOriginal.keypair_from_seed
    rw [if_pos h, if_neg (by omega)]
  refine ⟨⟨_, hs⟩, ?_⟩
  intro k1 k2 h1 h2
  rw [h1] at h2
  injection h2 with h2
  subst h2
  exact ⟨rfl, fun _ => rfl⟩

/-- C2 witness: instantiated at the all-ones 32-byte seed. -/
theorem from_seed_deterministic_witness :
    (List.replicate 32 1).length = 32 ∧
    ((∃ k, Keypair.py_from_seed (List.replicate 32 1) = .ok k) ∧
     (∀ k1 k2, Keypair.py_from_seed (List.replicate 32 1) = .ok k1 →
        Keypair.py_from_seed (List.replicate 32 1) = .ok k2 →
        k1.pubkey = k2.pubkey ∧ ∀ m, k1.sign_message m = k2.sign_message m)) :=
  ⟨by decide, from_seed_deterministic (List.replicate 32 1) (by decide)⟩

/-- C3: for every 64-byte buffer whose trailing 32 bytes are the derived
public key of its leading 32 bytes, `Keypair.from_bytes` succeeds and
`to_bytes` returns the buffer unchanged. -/
theorem from_bytes_to_bytes_roundtrip (b : List Nat) (h64 : b.length = 64)
    (_hpk : b.drop 32 = ed25519Pubkey (b.take 32)) :
    ∃ k, KeypairOriginal.from_bytes b = .ok k ∧ k.to_bytes = b := by
  refine ⟨⟨b.take 32, b.drop 32⟩, ?_, ?_⟩
  · unfold KeypairOriginal.from_bytes
    rw [if_pos h64]
  · exact List.take_append_drop 32 b

/-- C3 witness: instantiated at the buffer built from the all-zero seed and
its genuinely derived public key. -/
theorem from_bytes_to_bytes_roundtrip_witness :
    (List.replicate 32 0 ++ ed25519Pubkey (List.replicate 32 0)).length = 64 ∧
    (List.replicate 32 0 ++ ed25519Pubkey (List.replicate 32 0)).drop 32 =
      ed25519Pubkey ((List.replicate 32 0 ++ ed25519Pubkey (List.replicate 32 0)).take 32) ∧
    ∃ k, KeypairOriginal.from_bytes
        (List.replicate 32 0 ++ ed25519Pubkey (List.replicate 32 0)) = .ok k ∧
      k.to_bytes = List.replicate 32 0 ++ ed25519Pubkey (List.replicate 32 0) :=
  ⟨by decide, by decide,
    from_bytes_to_bytes_roundtrip _ (by decide) (by decide)⟩

/-- C4: for every well-formed Keypair, base58-decoding its base58 encoding
(`__str__` / `to_base58_string`) through `Keypair.from_base58_string`
returns an equal Keypair — in fact the very same stored bytes. -/
theorem from_base58_string_of_to_base58_string (k : Keypair) (h : k.WF) :
    Keypair.py_from_base58_string (KeypairOriginal.to_base58_string k) = .ok k := by
  obtain ⟨h1, h2, h3, h4⟩ := h
  have hbytes : ∀ x ∈ k.to_bytes, x < 256 := by
    intro x hx
    unfold Keypair.to_bytes at hx
    rcases List.mem_append.mp hx with hm | hm
    · exact h3 x hm
    · exact h4 x hm
  have hfb : KeypairOriginal.from_base58_string (KeypairOriginal.to_base58_string k) =
      some k := by
    unfold KeypairOriginal.from_base58_string KeypairOriginal.to_base58_string
    rw [b58Decode_b58Encode _ hbytes]
    show (match KeypairOriginal.from_bytes k.to_bytes with
      | RustResult.ok k2 => some k2
      | RustResult.err _ => none) = some k
    rw [from_bytes_to_bytes k h1 h2]
  unfold Keypair.py_from_base58_string
  rw [hfb]

/-- C4 witness: instantiated at the all-zero keypair, whose encoding is the
string of 64 ones pinned by the doc example at `src/keypair.rs` lines
86-93. -/
theorem from_base58_string_of_to_base58_string_witness :
    Keypair.WF ⟨List.replicate 32 0, List.replicate 32 0⟩ ∧
    Keypair.py_from_base58_string
        (KeypairOriginal.to_base58_string ⟨List.replicate 32 0, List.replicate 32 0⟩) =
      .ok ⟨List.replicate 32 0, List.replicate 32 0⟩ :=
  ⟨by decide, from_base58_string_of_to_base58_string _ (by decide)⟩

/-- C5: Keypair equality through `__richcmp__` holds exactly when the
64-byte representations coincide, equivalently exactly when the stored
keypairs coincide; equal keypairs hash equal, and the hash is the host hash
of the fixed "Keypair" discriminant paired with the 64-byte
representation. -/
theorem keypair_eq_iff_to_bytes_and_hash (psEq : Presigner → Keypair → Bool)
    (hostHash : String × List Nat → Int) (k1 k2 : Keypair)
    (h1 : k1.WF) (h2 : k2.WF) :
    (Keypair.richcmp psEq k1 (Signer.KeypairWrapper k2) CompareOp.eq = .ok true ↔
      k1.to_bytes = k2.to_bytes) ∧
    (Keypair.richcmp psEq k1 (Signer.KeypairWrapper k2) CompareOp.eq = .ok true ↔
      k1 = k2) ∧
    (k1.to_bytes = k2.to_bytes →
      Keypair.pyHash hostHash k1 = Keypair.pyHash hostHash k2) ∧
    Keypair.pyHash hostHash k1 = hostHash ("Keypair", k1.to_bytes) := by
  have hr : Keypair.richcmp psEq k1 (Signer.KeypairWrapper k2) CompareOp.eq =
      .ok (keypairEqOriginal k2 k1) := rfl
  have hiff : (Keypair.richcmp psEq k1 (Signer.KeypairWrapper k2) CompareOp.eq =
      .ok true) ↔ k1.to_bytes = k2.to_bytes := by
    rw [hr]
    unfold keypairEqOriginal
    constructor
    · intro h
      injection h with h
      exact (beq_iff_eq.mp h).symm
    · intro h
      rw [h]
      simp
  refine ⟨hiff, ⟨?_, ?_⟩, ?_, rfl⟩
  · intro h
    exact to_bytes_injective k1 k2 h1.1 h2.1 (hiff.mp h)
  · intro h
    subst h
    exact hiff.mpr rfl
  · intro h
    unfold Keypair.pyHash
    rw [h]

/-- C5 witness: instantiated at the all-zero keypair against itself, with a
constant host hash and a constant presigner comparison. -/
theorem keypair_eq_iff_to_bytes_and_hash_witness :
    Keypair.WF ⟨List.replicate 32 0, List.replicate 32 0⟩ ∧
    ((Keypair.richcmp (fun _ _ => false) ⟨List.replicate 32 0, List.replicate 32 0⟩
        (Signer.KeypairWrapper ⟨List.replicate 32 0, List.replicate 32 0⟩)
        CompareOp.eq = .ok true ↔
      Keypair.to_bytes ⟨List.replicate 32 0, List.replicate 32 0⟩ =
        Keypair.to_bytes ⟨List.replicate 32 0, List.replicate 32 0⟩) ∧
    (Keypair.richcmp (fun _ _ => false) ⟨List.replicate 32 0, List.replicate 32 0⟩
        (Signer.KeypairWrapper ⟨List.replicate 32 0, List.replicate 32 0⟩)
        CompareOp.eq = .ok true ↔
      (⟨List.replicate 32 0, List.replicate 32 0⟩ : Keypair) =
        ⟨List.replicate 32 0, List.replicate 32 0⟩) ∧
    (Keypair.to_bytes ⟨List.replicate 32 0, List.replicate 32 0⟩ =
        Keypair.to_bytes ⟨List.replicate 32 0, List.replicate 32 0⟩ →
      Keypair.pyHash (fun _ => 0) ⟨List.replicate 32 0, List.replicate 32 0⟩ =
        Keypair.pyHash (fun _ => 0) ⟨List.replicate 32 0, List.replicate 32 0⟩) ∧
    Keypair.pyHash (fun _ => 0) ⟨List.replicate 32 0, List.replicate 32 0⟩ =
      (fun _ => (0 : Int)) ("Keypair",
        Keypair.to_bytes ⟨List.replicate 32 0, List.replicate 32 0⟩)) :=
  ⟨by decide,
    keypair_eq_iff_to_bytes_and_hash (fun _ _ => false) (fun _ => 0) _ _
      (by decide) (by decide)⟩

/-- C7: cloning a well-formed Keypair round-trips it through the 64-byte
form and re-validation succeeds, returning an equal Keypair; the original
value is a pure immutable datum and is untouched. -/
theorem clone_revalidates (k : Keypair) (h : k.WF) :
    Keypair.clone k = some k ∧
    KeypairOriginal.from_bytes k.to_bytes = .ok k := by
  have hfb := from_bytes_to_bytes k h.1 h.2.1
  refine ⟨?_, hfb⟩
  unfold Keypair.clone
  rw [hfb]

/-- C7 witness: instantiated at the all-zero keypair. -/
theorem clone_revalidates_witness :
    Keypair.WF ⟨List.replicate 32 0, List.replicate 32 0⟩ ∧
    (Keypair.clone ⟨List.replicate 32 0, List.replicate 32 0⟩ =
        some ⟨List.replicate 32 0, List.replicate 32 0⟩ ∧
      KeypairOriginal.from_bytes
          (Keypair.to_bytes ⟨List.replicate 32 0, List.replicate 32 0⟩) =
        .ok ⟨List.replicate 32 0, List.replicate 32 0⟩) :=
  ⟨by decide, clone_revalidates _ (by decide)⟩

/-- C8: the keypair built by `from_seed` on 32 bytes of 0x01, signing the
ASCII message "hello", produces exactly the fixed Ed25519 signature of the
doc example (hex e1430c6e...438d08), computed here by running the full
RFC 8032 signing algorithm in the kernel. -/
theorem sign_known_answer :
    Keypair.py_from_seed (List.replicate 32 1) =
      .ok ⟨List.replicate 32 1, ed25519Pubkey (List.replicate 32 1)⟩ ∧
    Keypair.py_sign_message ⟨List.replicate 32 1, ed25519Pubkey (List.replicate 32 1)⟩
      [104, 101, 108, 108, 111] = knownSignatureHello := by
  constructor
  · decide
  · decide

/-- C9: the transaction module registers `TransactionVersion` as the
two-member union of the `Legacy` marker type and `int` — not an optional
integer — and in the value model a `Legacy` marker is distinct from the
integer version 0. -/
theorem transaction_version_two_member_union :
    List.lookup "TransactionVersion" create_transaction_mod =
      some (PyModItem.unionItem [PyTypeRef.legacyType, PyTypeRef.intType]) ∧
    [PyTypeRef.legacyType, PyTypeRef.intType].length = 2 ∧
    PyTypeRef.noneType ∉ [PyTypeRef.legacyType, PyTypeRef.intType] ∧
    ∀ n : Int, decide (TransactionVersion.legacy = TransactionVersion.intVersion n) = false := by
  refine ⟨by decide, rfl, by decide, ?_⟩
  intro n
  exact decide_eq_false (fun h => TransactionVersion.noConfusion h)

/-- C10: `Keypair.from_base58_string` is total in its interface — it never
returns a raised Python error value for any input (a failure can only abort
the call as a panic), unlike `from_bytes` and `from_seed`, whose fallible
interfaces do surface error values on some inputs. -/
theorem from_base58_string_interface_total :
    (∀ s : List Char, (Keypair.py_from_base58_string s).isPyErr = false) ∧
    (∃ s : List Char, Keypair.py_from_base58_string s = .panicked) ∧
    (∃ b : List Nat, (Keypair.py_from_bytes b).isPyErr = true) ∧
    (∃ s : List Nat, (Keypair.py_from_seed s).isPyErr = true) := by
  refine ⟨?_, ⟨['0'], by decide⟩, ⟨[], by decide⟩, ⟨[], by decide⟩⟩
  intro s
  unfold Keypair.py_from_base58_string
  cases hfb : KeypairOriginal.from_base58_string s with
  | none => rfl
  | some k => rfl

end Solders
